import Mathlib

/-
  Shallow embedding of the offline Eternal Jukebox generator
  (src/python_infite.py).

  Modelling conventions:
  * Python floats are modelled as exact rationals (ℚ) wherever the program
    only moves values around or compares them (beat times, durations, sample
    counts, probabilities), and as real numbers (ℝ) where `np.linalg.norm`
    introduces a square root (the similarity metric and the graph build).
  * `int(x)` on a float is truncation toward zero: `pyInt`.
  * Python list/array slicing `y[a:b]` (with clamping and negative-index
    wrap) is `pySlice`.
  * The ambient `random` module is modelled as an oracle stream: iteration k
    of the generation loop reads `(oracle k).1` as the value of
    `random.random()` and `(oracle k).2` as the position drawn by
    `random.choice` (taken modulo the list length).
  * Fallible operations (list indexing `beats[current_index]`,
    `np.concatenate` on an empty list) return errors through `Except` /
    explicit result constructors; the unbounded `while` loop takes explicit
    fuel and reports exhaustion.
-/

/-- Configuration weights (the `WEIGHTS` dict, src lines 19–26). -/
structure Weights where
  timbre : ℝ
  pitch : ℝ
  loudness_start : ℝ
  loudness_max : ℝ
  duration : ℝ
  confidence : ℝ

/-- The table `WEIGHTS = {timbre: 1, pitch: 10, loudness_start: 1,
loudness_max: 1, duration: 100, confidence: 1}`. -/
def WEIGHTS : Weights :=
  { timbre := 1, pitch := 10, loudness_start := 1, loudness_max := 1,
    duration := 100, confidence := 1 }

/-- One entry of a beat's `neighbors` list: `{'dest': j, 'distance': dist}`
(src lines 187–190). -/
structure Neighbor where
  dest : ℕ
  distance : ℝ

/-- A beat dict as built by `analyze_audio` (src lines 121–131).  Times and
durations are rationals (exact float values); the feature vectors and
loudness/confidence scalars only ever feed the similarity metric and are
modelled in ℝ. -/
structure Beat where
  index : ℕ
  start : ℚ
  duration : ℚ
  timbre : Fin 12 → ℝ
  pitch : Fin 12 → ℝ
  loudness_max : ℝ
  loudness_start : ℝ
  confidence : ℝ
  neighbors : List Neighbor

/-- Source `euclidean_distance(v1, v2) = np.linalg.norm(v1 - v2)` (lines
135–136): the 2-norm of the componentwise difference. -/
noncomputable def euclidean_distance (v1 v2 : Fin 12 → ℝ) : ℝ :=
  Real.sqrt (∑ i, (v1 i - v2 i) ^ 2)

/-- Source `get_seg_distances(seg1, seg2)` (lines 138–155): weighted sum of the
timbre/pitch euclidean distances and the absolute differences of loudness
start/max, duration and confidence. -/
noncomputable def get_seg_distances (seg1 seg2 : Beat) : ℝ :=
  let timbre := euclidean_distance seg1.timbre seg2.timbre
  let pitch := euclidean_distance seg1.pitch seg2.pitch
  let sloudStart := |seg1.loudness_start - seg2.loudness_start|
  let sloudMax := |seg1.loudness_max - seg2.loudness_max|
  let dur := |(seg1.duration : ℝ) - (seg2.duration : ℝ)|
  let conf := |seg1.confidence - seg2.confidence|
  timbre * WEIGHTS.timbre + pitch * WEIGHTS.pitch +
    sloudStart * WEIGHTS.loudness_start + sloudMax * WEIGHTS.loudness_max +
    dur * WEIGHTS.duration + conf * WEIGHTS.confidence

/-- The distance used by the graph build for the ordered pair `(b1, b2)`
(src lines 172–184): `dist = get_seg_distances(b1, b2)`, then
`dist += 100` when `b1['index'] % 4 != b2['index'] % 4`. -/
noncomputable def pairDist (b1 b2 : Beat) : ℝ :=
  let dist := get_seg_distances b1 b2
  if b1.index % 4 ≠ b2.index % 4 then dist + 100 else dist

/-- The inner `for j, b2 in enumerate(beats)` loop of `generate_graph` for
row `i` (src lines 165–191): scanning destinations in ascending `j`, skip
`i == j`, and append `(dest := j, distance := dist)` whenever
`dist < threshold`. -/
noncomputable def rowNeighbors (beats : List Beat) (threshold : ℝ) (i : ℕ)
    (b1 : Beat) : List Neighbor :=
  beats.enum.filterMap fun jb =>
    if i = jb.1 then none
    else if pairDist b1 jb.2 < threshold then
      some ⟨jb.1, pairDist b1 jb.2⟩
    else none

/-- Source `generate_graph(beats, threshold)` (lines 157–194): every beat `i`
gets the edges of its row appended to its `neighbors` list (which
`analyze_audio` created empty). -/
noncomputable def generate_graph (beats : List Beat) (threshold : ℝ) :
    List Beat :=
  beats.enum.map fun ib =>
    { ib.2 with neighbors := ib.2.neighbors ++ rowNeighbors beats threshold ib.1 ib.2 }

/-- Python `int(q)` for a rational value: truncation toward zero. -/
def pyInt (q : ℚ) : ℤ := q.num.tdiv (q.den : ℤ)

/-- Normalization of one Python slice bound: a negative bound counts from
the end (clamped at 0), a non-negative bound is clamped at the length. -/
def pySliceIdx (n : ℕ) (i : ℤ) : ℕ :=
  if i < 0 then n - i.natAbs else min i.toNat n

/-- Python slicing `l[i:j]`. -/
def pySlice {α : Type} (l : List α) (i j : ℤ) : List α :=
  (l.take (pySliceIdx l.length j)).drop (pySliceIdx l.length i)

/-- The audio span a beat contributes per visit (src lines 216–220):
`y[int(beat['start'] * sr) : int((beat['start'] + beat['duration']) * sr)]`. -/
def emitSegment (y : List ℚ) (sr : ℕ) (b : Beat) : List ℚ :=
  pySlice y (pyInt (b.start * (sr : ℚ))) (pyInt ((b.start + b.duration) * (sr : ℚ)))

/-- Source `target_samples = int(duration_minutes * 60 * sr)` (line 202). -/
def target_samples (duration_minutes : ℚ) (sr : ℕ) : ℤ :=
  pyInt (duration_minutes * 60 * (sr : ℚ))

/-- Errors the generation phase can hit at run time. -/
inductive GenError where
  | indexOutOfRange
  | concatenateEmpty
deriving DecidableEq

/-- Mutable state of the generation loop: `current_index`,
`generated_samples` and the accumulated `output_segments` (src lines
203–207). -/
structure GenState where
  currentIndex : ℕ
  generatedSamples : ℕ
  segments : List (List ℚ)
deriving DecidableEq

/-- Inputs of the generation loop, with the random module as an oracle. -/
structure GenConfig where
  y : List ℚ
  sr : ℕ
  beats : List Beat
  branch_probability : ℚ
  oracle : ℕ → ℚ × ℕ

/-- One iteration of the `while` body of `generate_infinite_track` (src
lines 209–239): wrap `current_index` to 0 when past the end, read
`beats[current_index]` (an out-of-range access when the list is empty),
append the beat's sample span, then either jump to a uniformly chosen
neighbor (when the neighbor list is non-empty and the draw is below the
branch probability) or advance sequentially. -/
def genStep (cfg : GenConfig) (k : ℕ) (s : GenState) : Except GenError GenState :=
  let ci0 := if s.currentIndex ≥ cfg.beats.length then 0 else s.currentIndex
  match cfg.beats[ci0]? with
  | none => .error .indexOutOfRange
  | some beat =>
    let segment := emitSegment cfg.y cfg.sr beat
    let ns := beat.neighbors
    let draw := cfg.oracle k
    let nextIndex :=
      if ns.isEmpty = false ∧ draw.1 < cfg.branch_probability then
        (ns.getD (draw.2 % ns.length) ⟨0, 0⟩).dest
      else ci0 + 1
    .ok ⟨nextIndex, s.generatedSamples + segment.length, s.segments ++ [segment]⟩

/-- Outcome of running the loop with a given amount of fuel. -/
inductive GenResult where
  | outOfFuel (s : GenState)
  | fail (e : GenError)
  | done (s : GenState)
deriving DecidableEq

/-- The `while generated_samples < target_samples` loop (src lines
209–239), with fuel; `k` counts iterations for the random oracle. -/
def genLoop (cfg : GenConfig) (target : ℤ) : ℕ → ℕ → GenState → GenResult
  | 0, _, s => .outOfFuel s
  | fuel + 1, k, s =>
    if (s.generatedSamples : ℤ) < target then
      match genStep cfg k s with
      | .error e => .fail e
      | .ok s1 => genLoop cfg target fuel (k + 1) s1
    else .done s

/-- Final trim (src lines 246–247): `full_audio[:target_samples]` only when
the concatenated audio is strictly longer than the target. -/
def trimOutput (full : List ℚ) (target : ℤ) : List ℚ :=
  if (full.length : ℤ) > target then pySlice full 0 target else full

/-- Result of `generate_infinite_track`: the final audio, a run-time error,
or fuel exhaustion (the source loop is unbounded). -/
inductive TrackResult where
  | outOfFuel
  | fail (e : GenError)
  | ok (audio : List ℚ)
deriving DecidableEq

/-- Source `generate_infinite_track(y, sr, beats, duration_minutes,
branch_probability, ...)` (lines 196–251): run the loop from
`current_index = 0`, `generated_samples = 0`, concatenate the collected
segments (`np.concatenate` raises on an empty list) and trim. -/
def generate_infinite_track (fuel : ℕ) (y : List ℚ) (sr : ℕ)
    (beats : List Beat) (duration_minutes : ℚ) (branch_probability : ℚ)
    (oracle : ℕ → ℚ × ℕ) : TrackResult :=
  let target := target_samples duration_minutes sr
  match genLoop ⟨y, sr, beats, branch_probability, oracle⟩ target fuel 0 ⟨0, 0, []⟩ with
  | .outOfFuel _ => .outOfFuel
  | .fail e => .fail e
  | .done s =>
    if s.segments.isEmpty then .fail .concatenateEmpty
    else .ok (trimOutput s.segments.flatten target)

/-- Whether the generation loop, started from the initial state, halts
normally for some finite fuel. -/
def GenTerminates (cfg : GenConfig) (target : ℤ) : Prop :=
  ∃ fuel s, genLoop cfg target fuel 0 ⟨0, 0, []⟩ = .done s

/-! Concrete fixtures used to instantiate the theorems below. -/

/-- The all-zero 12-dimensional feature vector. -/
def zeroVec : Fin 12 → ℝ := fun _ => 0

/-- A beat at phase 0 whose features all vanish. -/
def beatA : Beat := ⟨0, 0, 1, zeroVec, zeroVec, 0, 0, 1, []⟩

/-- A beat at phase 1 with the same features as `beatA`. -/
def beatB : Beat := ⟨1, 1, 1, zeroVec, zeroVec, 0, 0, 1, []⟩

/-- A two-beat input for the graph build. -/
def gbeats : List Beat := [beatA, beatB]

/-- A constant random oracle: every `random.random()` draw is 0 and every
`random.choice` position is 0. -/
def orc : ℕ → ℚ × ℕ := fun _ => (0, 0)

/-- A 10-sample silent buffer. -/
def y10 : List ℚ := List.replicate 10 0

/-- A 5-sample silent buffer. -/
def y5 : List ℚ := List.replicate 5 0

/-- A single beat covering 100 seconds from time 0: at any sample rate ≥ 1
it emits a non-empty span every visit. -/
def beats1 : List Beat := [⟨0, 0, 100, zeroVec, zeroVec, 0, 0, 1, []⟩]

/-- A beat of positive duration 1/2 second: at sample rate 1 its span
`y[int(0*1) : int((0+1/2)*1)] = y[0:0]` is empty. -/
def badBeat : Beat := ⟨0, 0, Rat.divInt 1 2, zeroVec, zeroVec, 0, 0, 1, []⟩

/-- A generation configuration that can never make progress: the only beat
emits an empty span at sample rate 1. -/
def stallCfg : GenConfig := ⟨y5, 1, [badBeat], 0, orc⟩

/-- A configuration whose single beat emits 10 samples per visit. -/
def seqCfg : GenConfig := ⟨y10, 1, beats1, 0, orc⟩

/-! Basic facts about the similarity metric. -/

/-- The euclidean component of the metric is symmetric. -/
theorem euclidean_distance_comm (v w : Fin 12 → ℝ) :
    euclidean_distance v w = euclidean_distance w v := by
  unfold euclidean_distance
  congr 1
  exact Finset.sum_congr rfl fun i _ => by ring

/-- C8: `get_seg_distances` is symmetric: for every pair of Beats `(a, b)`
under the fixed weight table, `get_seg_distances a b = get_seg_distances b a`. -/
theorem get_seg_distances_symm (a b : Beat) :
    get_seg_distances a b = get_seg_distances b a := by
  simp only [get_seg_distances]
  rw [euclidean_distance_comm a.timbre, euclidean_distance_comm a.pitch,
    abs_sub_comm a.loudness_start, abs_sub_comm a.loudness_max,
    abs_sub_comm (a.duration : ℝ), abs_sub_comm a.confidence]

/-- C3: the rhythmic-phase penalty added by the graph build on top of the
raw distance is exactly 0 when `i % 4 = j % 4` and exactly 100 otherwise. -/
theorem pairDist_phase_penalty (b1 b2 : Beat) :
    pairDist b1 b2 =
      get_seg_distances b1 b2 + (if b1.index % 4 = b2.index % 4 then 0 else 100) := by
  unfold pairDist
  by_cases h : b1.index % 4 = b2.index % 4
  · simp [h]
  · simp [h]

/-- The weighted distance is non-negative. -/
theorem get_seg_distances_nonneg (a b : Beat) : 0 ≤ get_seg_distances a b := by
  simp only [get_seg_distances, euclidean_distance, WEIGHTS]
  positivity

/-- The graph-build distance (with phase penalty) is non-negative. -/
theorem pairDist_nonneg (b1 b2 : Beat) : 0 ≤ pairDist b1 b2 := by
  have h := get_seg_distances_nonneg b1 b2
  simp only [pairDist]
  split <;> linarith

/-- C10: a Beat with positive duration can still emit zero samples: for
`badBeat` (duration 1/2 s) at sample rate 1, the slice bounds
`int(start*sr)` and `int((start+duration)*sr)` coincide, the appended
segment is empty, and one loop iteration leaves `generated_samples` at 0. -/
theorem positive_beat_zero_samples :
    (0 : ℚ) < badBeat.duration ∧
    pyInt (badBeat.start * (1 : ℕ)) = pyInt ((badBeat.start + badBeat.duration) * (1 : ℕ)) ∧
    emitSegment y5 1 badBeat = [] ∧
    genStep stallCfg 0 ⟨0, 0, []⟩ = .ok ⟨1, 0, [[]]⟩ := by
  refine ⟨?_, ?_, ?_, ?_⟩
  · with_unfolding_all decide
  · with_unfolding_all decide
  · with_unfolding_all decide
  · with_unfolding_all rfl

/-- C5: called on an empty Beat sequence, `generate_infinite_track` performs
no pre-loop validation: the run fails with an out-of-range access at
`beats[current_index]` inside the first loop iteration. -/
theorem empty_beats_index_error :
    generate_infinite_track 5 y10 1 [] 1 0 orc = .fail .indexOutOfRange ∧
    genStep ⟨y10, 1, [], 0, orc⟩ 0 ⟨0, 0, []⟩ = .error .indexOutOfRange := by
  constructor
  · with_unfolding_all rfl
  · with_unfolding_all rfl

/-! Reproducibility: the generator is a pure function of the oracle. -/

/-- C9: two runs of `generate_infinite_track` with the same sample buffer,
sample rate, Beats, target duration and branch probability, and with random
sources that return the same draws at every step, produce identical results. -/
theorem oracle_determinism (fuel : ℕ) (y : List ℚ) (sr : ℕ) (beats : List Beat)
    (dm p : ℚ) (o1 o2 : ℕ → ℚ × ℕ) (h : ∀ n, o1 n = o2 n) :
    generate_infinite_track fuel y sr beats dm p o1 =
      generate_infinite_track fuel y sr beats dm p o2 := by
  have key : ∀ f k s, genLoop ⟨y, sr, beats, p, o1⟩ (target_samples dm sr) f k s =
      genLoop ⟨y, sr, beats, p, o2⟩ (target_samples dm sr) f k s := by
    intro f
    induction f with
    | zero => intro k s; rfl
    | succ n ih =>
      intro k s
      have hstep : genStep ⟨y, sr, beats, p, o1⟩ k s = genStep ⟨y, sr, beats, p, o2⟩ k s := by
        simp only [genStep, h k]
      simp only [genLoop, hstep]
      split
      · cases genStep ⟨y, sr, beats, p, o2⟩ k s with
        | error e => rfl
        | ok s1 => exact ih (k + 1) s1
      · rfl
  simp only [generate_infinite_track, key]

/-- C9 witness: the reproducibility theorem applied at a concrete
configuration, whose run moreover completes with a concrete output. -/
theorem oracle_determinism_witness :
    generate_infinite_track 3 y10 1 beats1 (Rat.divInt 1 7) 0 orc =
      generate_infinite_track 3 y10 1 beats1 (Rat.divInt 1 7) 0 orc ∧
    generate_infinite_track 3 y10 1 beats1 (Rat.divInt 1 7) 0 orc =
      .ok (List.replicate 8 0) :=
  ⟨oracle_determinism 3 y10 1 beats1 (Rat.divInt 1 7) 0 orc orc fun _ => rfl,
    by with_unfolding_all decide⟩

/-! Termination analysis of the generation loop. -/

/-- The stalling beat's span is empty at sample rate 1. -/
theorem stall_emit : emitSegment y5 1 badBeat = [] := by
  with_unfolding_all decide

/-- One iteration of the stalled configuration: the empty segment is
appended, `generated_samples` does not move, and the walk advances to
index 1 (wrapping back to 0 on the next iteration). -/
theorem stall_genStep (k : ℕ) (s : GenState) :
    genStep stallCfg k s = .ok ⟨1, s.generatedSamples, s.segments ++ [[]]⟩ := by
  have hci : (if s.currentIndex ≥ stallCfg.beats.length then 0 else s.currentIndex) = 0 := by
    have h1 : stallCfg.beats.length = 1 := rfl
    rw [h1]; split <;> omega
  have h2 : stallCfg.beats[(0 : ℕ)]? = some badBeat := rfl
  have h3 : badBeat.neighbors = [] := rfl
  have h4 : stallCfg.y = y5 := rfl
  have h5 : stallCfg.sr = 1 := rfl
  simp only [genStep, hci, h2, h3, h4, h5, stall_emit]
  simp

/-- Every run of the stalled configuration only ever runs out of fuel. -/
theorem stall_loop (fuel : ℕ) : ∀ k s, s.generatedSamples = 0 →
    ∃ s2, genLoop stallCfg 1 fuel k s = .outOfFuel s2 := by
  induction fuel with
  | zero => exact fun k s _ => ⟨s, rfl⟩
  | succ n ih =>
    intro k s h
    simp only [genLoop, h, stall_genStep, Nat.cast_zero]
    rw [if_pos (by norm_num)]
    exact ih (k + 1) ⟨1, 0, s.segments ++ [[]]⟩ rfl

/-- C2 counterexample: `stallCfg` has a non-empty Beat sequence whose only
Beat has positive duration (1/2 s), the target of 1 sample comes from a
positive target duration (1/60 min at rate 1), yet the generation loop
never terminates: the emitted span is empty every iteration, so
`generated_samples` stays 0 forever. -/
theorem nonterminating_counterexample :
    (0 : ℚ) < badBeat.duration ∧
    target_samples (Rat.divInt 1 60) 1 = 1 ∧
    ¬ GenTerminates stallCfg 1 := by
  refine ⟨by with_unfolding_all decide, by with_unfolding_all decide, ?_⟩
  rintro ⟨fuel, s, hdone⟩
  obtain ⟨s2, h2⟩ := stall_loop fuel 0 ⟨0, 0, []⟩ rfl
  rw [hdone] at h2
  exact GenResult.noConfusion h2

/-- When the Beat sequence is non-empty, one loop iteration always
succeeds: it reads some Beat of the sequence and appends that Beat's span. -/
theorem genStep_ok_of_nonempty (cfg : GenConfig) (hne : cfg.beats ≠ [])
    (k : ℕ) (s : GenState) :
    ∃ beat s1, genStep cfg k s = .ok s1 ∧ beat ∈ cfg.beats ∧
      s1.generatedSamples = s.generatedSamples + (emitSegment cfg.y cfg.sr beat).length ∧
      s1.segments = s.segments ++ [emitSegment cfg.y cfg.sr beat] := by
  have hlt : (if s.currentIndex ≥ cfg.beats.length then 0 else s.currentIndex) <
      cfg.beats.length := by
    split
    · exact List.length_pos.mpr hne
    · omega
  have hsome : cfg.beats[(if s.currentIndex ≥ cfg.beats.length then 0 else s.currentIndex)]? =
      some (cfg.beats.get ⟨_, hlt⟩) := by
    rw [List.getElem?_eq_getElem hlt]
    rfl
  simp only [genStep, hsome]
  exact ⟨cfg.beats.get ⟨_, hlt⟩, _, rfl, List.get_mem cfg.beats _ hlt, rfl, rfl⟩

/-- Enough fuel makes the loop halt when every Beat's span is non-empty:
each iteration then adds at least one sample. -/
theorem genLoop_term (cfg : GenConfig) (target : ℤ) (hne : cfg.beats ≠ [])
    (hemit : ∀ b ∈ cfg.beats, (emitSegment cfg.y cfg.sr b).length ≠ 0) :
    ∀ (fuel k : ℕ) (s : GenState), target ≤ (s.generatedSamples : ℤ) + (fuel : ℤ) →
      ∃ s2, genLoop cfg target (fuel + 1) k s = .done s2 := by
  intro fuel
  induction fuel with
  | zero =>
    intro k s h
    refine ⟨s, ?_⟩
    simp only [genLoop]
    rw [if_neg (by omega)]
  | succ n ih =>
    intro k s h
    by_cases hlt : (s.generatedSamples : ℤ) < target
    · obtain ⟨beat, s1, hstep, hmem, hgen, _⟩ := genStep_ok_of_nonempty cfg hne k s
      have hpos := hemit beat hmem
      obtain ⟨s2, h2⟩ := ih (k + 1) s1 (by omega)
      refine ⟨s2, ?_⟩
      simp only [genLoop]
      rw [if_pos hlt, hstep]
      exact h2
    · refine ⟨s, ?_⟩
      simp only [genLoop]
      rw [if_neg hlt]

/-- C2 (amended): the generation loop terminates for every random stream,
branch probability and target provided the Beat sequence is non-empty and
every Beat's emitted span contains at least one sample (positive duration
alone does not guarantee this, see the counterexample). -/
theorem termination_of_positive_spans (cfg : GenConfig) (target : ℤ)
    (hne : cfg.beats ≠ [])
    (hemit : ∀ b ∈ cfg.beats, (emitSegment cfg.y cfg.sr b).length ≠ 0) :
    GenTerminates cfg target := by
  obtain ⟨s2, h2⟩ := genLoop_term cfg target hne hemit target.toNat 0 ⟨0, 0, []⟩ (by omega)
  exact ⟨target.toNat + 1, s2, h2⟩

/-- C2 witness: the amended termination theorem applied to a concrete
configuration whose single beat emits 10 samples per visit. -/
theorem termination_of_positive_spans_witness :
    seqCfg.beats ≠ [] ∧
    (∀ b ∈ seqCfg.beats, (emitSegment seqCfg.y seqCfg.sr b).length ≠ 0) ∧
    GenTerminates seqCfg 8 :=
  ⟨by simp [seqCfg, beats1], by with_unfolding_all decide,
    termination_of_positive_spans seqCfg 8 (by simp [seqCfg, beats1])
      (by with_unfolding_all decide)⟩

/-! Output-length analysis. -/

/-- Any successful single step appends exactly one segment and accounts for
its length in `generated_samples`. -/
theorem genStep_ok_shape (cfg : GenConfig) (k : ℕ) (s s1 : GenState)
    (h : genStep cfg k s = .ok s1) :
    ∃ seg, s1.generatedSamples = s.generatedSamples + seg.length ∧
      s1.segments = s.segments ++ [seg] := by
  simp only [genStep] at h
  split at h
  · exact Except.noConfusion h
  · injection h with h1
    exact ⟨_, by rw [← h1], by rw [← h1]⟩

/-- A normally halted loop has reached the target. -/
theorem genLoop_done_le (cfg : GenConfig) (target : ℤ) :
    ∀ (fuel k : ℕ) (s s2 : GenState), genLoop cfg target fuel k s = .done s2 →
      target ≤ (s2.generatedSamples : ℤ) := by
  intro fuel
  induction fuel with
  | zero => intro k s s2 h; exact absurd h (by simp [genLoop])
  | succ n ih =>
    intro k s s2 h
    simp only [genLoop] at h
    split at h
    · cases hstep : genStep cfg k s with
      | error e => rw [hstep] at h; exact GenResult.noConfusion h
      | ok s1 => rw [hstep] at h; exact ih (k + 1) s1 s2 h
    · injection h with h1
      subst h1
      omega

/-- Invariant: `generated_samples` always equals the length of the
concatenation of the collected segments. -/
theorem genLoop_done_flatten (cfg : GenConfig) (target : ℤ) :
    ∀ (fuel k : ℕ) (s s2 : GenState), genLoop cfg target fuel k s = .done s2 →
      s.generatedSamples = s.segments.flatten.length →
      s2.generatedSamples = s2.segments.flatten.length := by
  intro fuel
  induction fuel with
  | zero => intro k s s2 h; exact absurd h (by simp [genLoop])
  | succ n ih =>
    intro k s s2 h hinv
    simp only [genLoop] at h
    split at h
    · cases hstep : genStep cfg k s with
      | error e => rw [hstep] at h; exact GenResult.noConfusion h
      | ok s1 =>
        rw [hstep] at h
        obtain ⟨seg, hg, hs⟩ := genStep_ok_shape cfg k s s1 hstep
        exact ih (k + 1) s1 s2 h (by simp [hg, hs, hinv])
    · injection h with h1
      subst h1
      exact hinv

/-- If the loop halts normally from the initial state having collected at
least one segment, the target was positive. -/
theorem genLoop_done_init_pos (cfg : GenConfig) (target : ℤ) (fuel : ℕ)
    (s2 : GenState) (h : genLoop cfg target fuel 0 ⟨0, 0, []⟩ = .done s2)
    (hne : s2.segments.isEmpty = false) : 0 < target := by
  cases fuel with
  | zero => exact absurd h (by simp [genLoop])
  | succ n =>
    simp only [genLoop] at h
    split at h
    · simpa using ‹((GenState.mk 0 0 []).generatedSamples : ℤ) < target›
    · injection h with h1
      subst h1
      simp at hne

/-- The final trim yields exactly the target count whenever the
concatenated audio reached it. -/
theorem trimOutput_length (full : List ℚ) (target : ℤ)
    (h1 : target ≤ (full.length : ℤ)) (h2 : 0 ≤ target) :
    ((trimOutput full target).length : ℤ) = target := by
  unfold trimOutput
  split_ifs with hgt
  · simp only [pySlice, pySliceIdx]
    rw [if_neg (by omega : ¬ target < (0 : ℤ)), if_neg (by omega : ¬ (0 : ℤ) < 0)]
    simp only [List.length_drop, List.length_take, Int.toNat_zero]
    omega
  · omega

/-- C1 (amended): whenever `generate_infinite_track` completes, the final
trimmed output holds exactly `int(duration_minutes * 60 * sr)` samples —
the Python `int()` truncation of the product, not its ceiling or rounding. -/
theorem output_length_eq_int_target (fuel : ℕ) (y : List ℚ) (sr : ℕ)
    (beats : List Beat) (dm p : ℚ) (o : ℕ → ℚ × ℕ) (audio : List ℚ)
    (h : generate_infinite_track fuel y sr beats dm p o = .ok audio) :
    (audio.length : ℤ) = target_samples dm sr := by
  simp only [generate_infinite_track] at h
  cases hr : genLoop ⟨y, sr, beats, p, o⟩ (target_samples dm sr) fuel 0 ⟨0, 0, []⟩ with
  | outOfFuel s => rw [hr] at h; simp at h
  | fail e => rw [hr] at h; simp at h
  | done s =>
    rw [hr] at h
    dsimp only at h
    split_ifs at h with hemp
    simp only [TrackResult.ok.injEq] at h
    have hle := genLoop_done_le _ _ fuel 0 _ _ hr
    have hinv := genLoop_done_flatten _ _ fuel 0 _ _ hr rfl
    have hpos := genLoop_done_init_pos _ _ fuel _ hr (by simpa using hemp)
    rw [← h]
    exact trimOutput_length _ _ (by omega) hpos.le

/-- C1 counterexample: at target duration 1/7 min and sample rate 1, the
product `T*60*R = 60/7` is not an integer; the code's `int()` truncation
gives 85.7… → 8 samples, while the claimed `round` and `ceil` both give 9.
The concrete run yields exactly 8 samples, refuting both stated formulas. -/
theorem output_length_not_ceil_counterexample :
    generate_infinite_track 3 y10 1 beats1 (Rat.divInt 1 7) 0 orc =
      .ok (List.replicate 8 0) ∧
    ((List.replicate 8 (0 : ℚ)).length : ℤ) ≠ ⌈(Rat.divInt 1 7 * 60 * ((1 : ℕ) : ℚ))⌉ ∧
    ((List.replicate 8 (0 : ℚ)).length : ℤ) ≠ round (Rat.divInt 1 7 * 60 * ((1 : ℕ) : ℚ)) := by
  refine ⟨by with_unfolding_all decide, ?_, ?_⟩
  · rw [show (Rat.divInt 1 7 * 60 * ((1 : ℕ) : ℚ)) = 60 / 7 by norm_num [Rat.divInt_eq_div]]
    rw [show ⌈(60 / 7 : ℚ)⌉ = 9 from by rw [Int.ceil_eq_iff]; constructor <;> norm_num]
    norm_num
  · norm_num [Rat.divInt_eq_div, round_eq]

/-- C1 witness: the amended length theorem applied to a concrete completed
run: target duration 1/7 min at rate 1 gives `int(60/7) = 8` samples. -/
theorem output_length_eq_int_target_witness :
    generate_infinite_track 3 y10 1 beats1 (Rat.divInt 1 7) 0 orc =
      .ok (List.replicate 8 0) ∧
    ((List.replicate 8 (0 : ℚ)).length : ℤ) = target_samples (Rat.divInt 1 7) 1 :=
  ⟨by with_unfolding_all decide,
    output_length_eq_int_target 3 y10 1 beats1 (Rat.divInt 1 7) 0 orc
      (List.replicate 8 0) (by with_unfolding_all decide)⟩

/-! The similarity graph. -/

/-- Membership in one row of the graph build: exactly the destinations
`j ≠ i` whose penalized distance beats the threshold, carrying that
distance. -/
theorem mem_rowNeighbors (beats : List Beat) (t : ℝ) (i j : ℕ) (b1 : Beat) (d : ℝ) :
    (⟨j, d⟩ : Neighbor) ∈ rowNeighbors beats t i b1 ↔
      ∃ bj, beats[j]? = some bj ∧ j ≠ i ∧ d = pairDist b1 bj ∧ d < t := by
  unfold rowNeighbors
  rw [List.mem_filterMap]
  constructor
  · rintro ⟨⟨j1, bj⟩, hmem, hf⟩
    rw [List.mem_enum_iff_getElem?] at hmem
    dsimp at hmem hf
    split_ifs at hf with h1 h2
    simp only [Option.some.injEq, Neighbor.mk.injEq] at hf
    obtain ⟨hj, hd⟩ := hf
    subst hj
    exact ⟨bj, hmem, fun he => h1 he.symm, hd.symm, hd ▸ h2⟩
  · rintro ⟨bj, hj, hne, hd, hlt⟩
    refine ⟨(j, bj), ?_, ?_⟩
    · rw [List.mem_enum_iff_getElem?]
      exact hj
    · dsimp
      rw [if_neg fun he => hne he.symm, if_pos (hd ▸ hlt)]
      rw [hd]

/-- A `filterMap` whose outputs project back to the scanned key produces a
projection that is a sublist of the keys. -/
theorem filterMap_proj_sublist {α β γ : Type} (g : α → Option β) (m : α → γ)
    (f2 : β → γ) (h : ∀ a b, g a = some b → f2 b = m a) (l : List α) :
    ((l.filterMap g).map f2).Sublist (l.map m) := by
  induction l with
  | nil => simp
  | cons a l ih =>
    cases hg : g a with
    | none =>
      rw [List.filterMap_cons_none hg, List.map_cons]
      exact ih.cons (m a)
    | some b =>
      rw [List.filterMap_cons_some hg, List.map_cons, List.map_cons, h a b hg]
      exact ih.cons₂ (m a)

/-- Row edges are listed in strictly ascending destination order. -/
theorem rowNeighbors_sorted (beats : List Beat) (t : ℝ) (i : ℕ) (b1 : Beat) :
    (rowNeighbors beats t i b1).Pairwise fun e1 e2 => e1.dest < e2.dest := by
  have hproj : ∀ (jb : ℕ × Beat) (e : Neighbor),
      (if i = jb.1 then none
       else if pairDist b1 jb.2 < t then some (⟨jb.1, pairDist b1 jb.2⟩ : Neighbor)
       else none) = some e → e.dest = jb.1 := by
    intro jb e hf
    split_ifs at hf with h1 h2
    simp only [Option.some.injEq] at hf
    rw [← hf]
  have hsub := filterMap_proj_sublist _ Prod.fst Neighbor.dest hproj beats.enum
  have hpair : ((rowNeighbors beats t i b1).map Neighbor.dest).Pairwise (· < ·) := by
    refine List.Pairwise.sublist hsub ?_
    rw [List.enum_map_fst]
    exact List.pairwise_lt_range beats.length
  exact List.pairwise_map.mp hpair

/-- The beat stored at position `i` after the graph build: the original
beat with its row of edges appended to its (previously created) list. -/
theorem generate_graph_getElem (beats : List Beat) (t : ℝ) (i : ℕ) (b : Beat)
    (hb : beats[i]? = some b) :
    (generate_graph beats t)[i]? =
      some { b with neighbors := b.neighbors ++ rowNeighbors beats t i b } := by
  unfold generate_graph
  rw [List.getElem?_map, List.getElem?_enum, hb]
  rfl

/-- C4: after `generate_graph` runs on beats with empty neighbor lists, the
beat at position `i` carries exactly the edges `(j, d)` with `j ≠ i` and
`d = pairDist` below the threshold, in strictly ascending destination
order, and never its own index. -/
theorem graph_neighbors_spec (beats : List Beat) (t : ℝ) (i : ℕ) (b : Beat)
    (hb : beats[i]? = some b) (hemp : b.neighbors = []) :
    ∃ b2, (generate_graph beats t)[i]? = some b2 ∧
      (∀ j d, (⟨j, d⟩ : Neighbor) ∈ b2.neighbors ↔
        ∃ bj, beats[j]? = some bj ∧ j ≠ i ∧ d = pairDist b bj ∧ d < t) ∧
      b2.neighbors.Pairwise (fun e1 e2 => e1.dest < e2.dest) ∧
      (∀ e ∈ b2.neighbors, e.dest ≠ i) := by
  refine ⟨_, generate_graph_getElem beats t i b hb, ?_, ?_, ?_⟩
  · intro j d
    simp only [hemp, List.nil_append]
    exact mem_rowNeighbors beats t i j b d
  · simp only [hemp, List.nil_append]
    exact rowNeighbors_sorted beats t i b
  · intro e he
    simp only [hemp, List.nil_append] at he
    obtain ⟨j, dd⟩ := e
    obtain ⟨bj, _, hne, _, _⟩ := (mem_rowNeighbors beats t i j b dd).mp he
    exact hne

/-- C4 witness: the characterization instantiated on the two-beat fixture
at threshold 50 and row 0. -/
theorem graph_neighbors_spec_witness :
    ∃ b2, (generate_graph gbeats 50)[0]? = some b2 ∧
      (∀ j d, (⟨j, d⟩ : Neighbor) ∈ b2.neighbors ↔
        ∃ bj, gbeats[j]? = some bj ∧ j ≠ 0 ∧ d = pairDist beatA bj ∧ d < 50) ∧
      b2.neighbors.Pairwise (fun e1 e2 => e1.dest < e2.dest) ∧
      (∀ e ∈ b2.neighbors, e.dest ≠ 0) :=
  graph_neighbors_spec gbeats 50 0 beatA rfl rfl

/-- Raising the threshold only ever adds row edges (with their distances
unchanged). -/
theorem rowNeighbors_mono (beats : List Beat) (t1 t2 : ℝ) (hle : t1 ≤ t2)
    (i : ℕ) (b : Beat) :
    rowNeighbors beats t1 i b ⊆ rowNeighbors beats t2 i b := by
  intro e he
  obtain ⟨j, d⟩ := e
  rw [mem_rowNeighbors] at he ⊢
  obtain ⟨bj, hj, hne, hd, hlt⟩ := he
  exact ⟨bj, hj, hne, hd, lt_of_lt_of_le hlt hle⟩

/-- C7: the edge set produced by `generate_graph` is monotone in the
threshold: every edge (destination and distance) present at threshold `t1`
is present at any threshold `t2 ≥ t1` — equivalently, no edge absent at
`t2` can be present at `t1`. -/
theorem threshold_monotone (beats : List Beat) (t1 t2 : ℝ) (hle : t1 ≤ t2)
    (i : ℕ) (b1 b2 : Beat)
    (h1 : (generate_graph beats t1)[i]? = some b1)
    (h2 : (generate_graph beats t2)[i]? = some b2) :
    b1.neighbors ⊆ b2.neighbors := by
  cases hb : beats[i]? with
  | none =>
    rw [generate_graph, List.getElem?_map, List.getElem?_enum, hb] at h1
    exact absurd h1 (by simp)
  | some b =>
    rw [generate_graph_getElem beats t1 i b hb] at h1
    rw [generate_graph_getElem beats t2 i b hb] at h2
    injection h1 with h1
    injection h2 with h2
    rw [← h1, ← h2]
    intro e he
    rcases List.mem_append.mp he with hold | hnew
    · exact List.mem_append.mpr (Or.inl hold)
    · exact List.mem_append.mpr (Or.inr (rowNeighbors_mono beats t1 t2 hle i b hnew))

/-- C7 witness: monotonicity instantiated on the two-beat fixture between
thresholds 50 and 150. -/
theorem threshold_monotone_witness :
    ({ beatA with neighbors := beatA.neighbors ++ rowNeighbors gbeats 50 0 beatA } : Beat).neighbors ⊆
      ({ beatA with neighbors := beatA.neighbors ++ rowNeighbors gbeats 150 0 beatA } : Beat).neighbors :=
  threshold_monotone gbeats 50 150 (by norm_num) 0 _ _
    (generate_graph_getElem gbeats 50 0 beatA rfl)
    (generate_graph_getElem gbeats 150 0 beatA rfl)

/-- A non-positive threshold admits no edge (distances are non-negative). -/
theorem rowNeighbors_nonpos (beats : List Beat) (t : ℝ) (ht : t ≤ 0) (i : ℕ)
    (b1 : Beat) : rowNeighbors beats t i b1 = [] := by
  unfold rowNeighbors
  rw [List.filterMap_eq_nil_iff]
  intro jb hjb
  split_ifs with h1 h2
  · rfl
  · exact absurd h2 (by nlinarith [pairDist_nonneg b1 jb.2])
  · rfl

/-- With a non-positive threshold the graph build leaves every neighbor
list as it was. -/
theorem generate_graph_nonpos (beats : List Beat) (t : ℝ) (ht : t ≤ 0) :
    (generate_graph beats t).map Beat.neighbors = beats.map Beat.neighbors := by
  unfold generate_graph
  rw [List.map_map]
  have : (Beat.neighbors ∘ fun ib : ℕ × Beat =>
      { ib.2 with neighbors := ib.2.neighbors ++ rowNeighbors beats t ib.1 ib.2 }) =
      fun ib : ℕ × Beat => ib.2.neighbors := by
    funext ib
    simp [rowNeighbors_nonpos beats t ht]
  rw [this]
  have h2 : (fun ib : ℕ × Beat => ib.2.neighbors) = Beat.neighbors ∘ Prod.snd := rfl
  rw [h2, ← List.map_map, List.enum_map_snd]

/-- C6: no configuration validation exists anywhere in the pipeline.  A
negative threshold is accepted by `generate_graph` (it silently builds an
edge-free graph), a branch probability of 2 (outside [0,1]) is accepted by
`generate_infinite_track` (the run completes normally), and a negative
target duration is not rejected either: it surfaces only as the crash of
`np.concatenate` on the empty segment list, after the loop. -/
theorem invalid_config_not_rejected :
    (generate_graph gbeats (-5)).map Beat.neighbors = [[], []] ∧
    generate_infinite_track 3 y10 1 beats1 (Rat.divInt 1 7) 2 orc =
      .ok (List.replicate 8 0) ∧
    generate_infinite_track 3 y10 1 beats1 (-1) 0 orc = .fail .concatenateEmpty := by
  refine ⟨?_, by with_unfolding_all decide, by with_unfolding_all decide⟩
  rw [generate_graph_nonpos gbeats (-5) (by norm_num)]
  rfl
